import Mathlib

/-!
Shallow embedding of the slime-mold simulation in src/slife.py.

Grids are association lists from integer coordinates to Site records with
rational fields (the Python floats are modelled as exact rationals).
Python dict accesses that can raise KeyError are modelled with Option:
a lookup or in-place update of a missing key yields none, and an
operation built from such accesses propagates none.
-/

namespace SLife

attribute [local semireducible] Rat.mul Rat.sub Rat.add Rat.inv

abbrev Coord : Type := Int × Int

structure Site where
  mold : ℚ
  food : ℚ
  camp : ℚ
  refractory : ℚ
deriving DecidableEq, Repr

abbrev Grid : Type := List (Coord × Site)

/-- Association-list lookup, modelling a Python dict read. -/
def alookup {β : Type} : List (Coord × β) → Coord → Option β
  | [], _ => none
  | (k, v) :: rest, c => if k = c then some v else alookup rest c

/-- In-place update of an existing key, modelling dict mutation such as
the statement next_grid[coord] updated via augmented assignment; a missing
key yields none, as the corresponding Python raises KeyError. -/
def aupdate {β : Type} : List (Coord × β) → Coord → (β → β) → Option (List (Coord × β))
  | [], _, _ => none
  | (k, v) :: rest, c, f =>
    if k = c then some ((k, f v) :: rest)
    else (aupdate rest c f).map (fun r => (k, v) :: r)

/-- Dict assignment grid[c] = v: overwrite in place if present, else append. -/
def aset {β : Type} : List (Coord × β) → Coord → β → List (Coord × β)
  | [], c, v => [(c, v)]
  | (k, w) :: rest, c, v => if k = c then (k, v) :: rest else (k, w) :: aset rest c v

/-- The accumulator idiom of CampBehavior.apply: if the key is absent it is
initialised to 0 and then incremented, so absent keys are appended with v. -/
def addToMap : List (Coord × ℚ) → Coord → ℚ → List (Coord × ℚ)
  | [], c, v => [(c, v)]
  | (k, w) :: rest, c, v => if k = c then (k, w + v) :: rest else (k, w) :: addToMap rest c v

/-- Option-valued map over a list, modelling a loop of dict reads that can
raise on the first missing key. -/
def mapOpt {α β : Type} (f : α → Option β) : List α → Option (List β)
  | [] => some []
  | x :: xs => (f x).bind (fun y => (mapOpt f xs).map (fun ys => y :: ys))

/-! Configuration constants from CONFIG in src/slife.py. -/

def grid_size : Nat := 50

def initial_cells : ℚ := 100

def food_capacity : ℚ := 5

def food_consumption_rate : ℚ := 1 / 10

def camp_decay : ℚ := 1 / 10

def amplification_factor : ℚ := 3 / 2

def refractory_period : ℚ := 5

/-! GridUtils. -/

/-- GridUtils.neighbors: the four axis-aligned adjacent coordinates. -/
def neighbors (c : Coord) : List Coord :=
  [(c.1 - 1, c.2), (c.1 + 1, c.2), (c.1, c.2 - 1), (c.1, c.2 + 1)]

/-- Test used by GridUtils.prune_empty_sites: all four field values are 0. -/
def siteAllZero (s : Site) : Bool :=
  decide (s.mold = 0) && decide (s.food = 0) && decide (s.camp = 0) && decide (s.refractory = 0)

/-- GridUtils.prune_empty_sites: delete every entry whose fields are all 0. -/
def prune_empty_sites (g : Grid) : Grid :=
  g.filter (fun p => !(siteAllZero p.2))

/-- Membership test, modelling the Python expression neighbor in grid. -/
def containsG (g : Grid) (c : Coord) : Bool := (alookup g c).isSome

def zeroSite : Site := { mold := 0, food := 0, camp := 0, refractory := 0 }

/-- The new_cells list collected by GridUtils.expand_grid: for each key of
the (unchanged) grid, those of its neighbors that are not keys. -/
def expand_new_cells (g : Grid) : List Coord :=
  g.foldl (fun acc p => acc ++ (neighbors p.1).filter (fun n => !(containsG g n))) []

/-- GridUtils.expand_grid: assign a zeroed Site to every collected new cell. -/
def expand_grid (g : Grid) : Grid :=
  (expand_new_cells g).foldl (fun gr c => aset gr c zeroSite) g

/-! Behavior.ranked_neighbors and MoldBehavior. -/

/-- The sort order of Behavior.ranked_neighbors: ascending in the key
(-camp, mold), i.e. descending camp with ties broken by ascending mold. -/
def rankLe (a b : Coord × Site) : Bool :=
  decide (b.2.camp < a.2.camp) || (decide (a.2.camp = b.2.camp) && decide (a.2.mold ≤ b.2.mold))

def insertRanked (x : Coord × Site) : List (Coord × Site) → List (Coord × Site)
  | [] => [x]
  | y :: ys => if rankLe x y then x :: y :: ys else y :: insertRanked x ys

/-- Stable insertion sort by rankLe, matching the stable Python sorted. -/
def sortRanked : List (Coord × Site) → List (Coord × Site)
  | [] => []
  | x :: xs => insertRanked x (sortRanked xs)

/-- Behavior.ranked_neighbors: reads grid[n] for each of the four neighbors
(raising if one is missing) and sorts them; each neighbor is paired with the
site read for it, which the caller's re-reads of the unmutated grid equal. -/
def ranked_neighbors (g : Grid) (c : Coord) : Option (List (Coord × Site)) :=
  (mapOpt (fun n => (alookup g n).map (fun s => (n, s))) (neighbors c)).map sortRanked

/-- The per-neighbor weight in MoldBehavior.process_site: proportional to the
neighbor's camp when the neighbor camp total is positive, else 1/len. -/
def moldWeight (total_camp : ℚ) (count : Nat) (s : Site) : ℚ :=
  if 0 < total_camp then s.camp / total_camp else 1 / (count : ℚ)

/-- The distribution loop of MoldBehavior.process_site over the ranked
neighbor list, adding total_mold * weight to each neighbor's next mold. -/
def moldDistrib (total_mold total_camp : ℚ) (count : Nat) :
    Grid → List (Coord × Site) → Option Grid
  | next, [] => some next
  | next, (n, s) :: rest =>
    (aupdate next n (fun t => { t with mold := t.mold + total_mold * moldWeight total_camp count s })).bind
      (fun next2 => moldDistrib total_mold total_camp count next2 rest)

/-- MoldBehavior.process_site. -/
def mold_process_site (g : Grid) (next : Grid) (c : Coord) (st : Site) : Option Grid :=
  (ranked_neighbors g c).bind (fun ns =>
    moldDistrib st.mold ((ns.map (fun p => p.2.camp)).sum) ns.length next ns)

/-- Behavior.apply specialised to MoldBehavior: iterate the entries of the
current grid and process those with positive mold. -/
def moldAux (g : Grid) : Grid → List (Coord × Site) → Option Grid
  | next, [] => some next
  | next, (c, st) :: rest =>
    if 0 < st.mold then
      (mold_process_site g next c st).bind (fun next2 => moldAux g next2 rest)
    else moldAux g next rest

def moldApply (g : Grid) (next : Grid) : Option Grid := moldAux g next g

/-! FoodBehavior. -/

/-- FoodBehavior.is_process_site. -/
def foodActive (st : Site) : Bool :=
  decide (0 < st.mold) && decide (food_consumption_rate ≤ st.food)

/-- Behavior.apply specialised to FoodBehavior: at each active site, the next
grid's same coordinate gains consumed * amplification_factor camp and loses
consumed food, where consumed = food_consumption_rate * current mold. -/
def foodAux : Grid → List (Coord × Site) → Option Grid
  | next, [] => some next
  | next, (c, st) :: rest =>
    if foodActive st then
      (aupdate next c (fun t =>
        { t with camp := t.camp + food_consumption_rate * st.mold * amplification_factor,
                 food := t.food - food_consumption_rate * st.mold })).bind
        (fun next2 => foodAux next2 rest)
    else foodAux next rest

def foodApply (g : Grid) (next : Grid) : Option Grid := foodAux next g

/-! CampBehavior. -/

/-- The inner loop of CampBehavior.apply: distribute a decayed camp amount
equally (a quarter each) to the four neighbors in the accumulator. -/
def campSpread (acc : List (Coord × ℚ)) (c : Coord) (camp : ℚ) : List (Coord × ℚ) :=
  (neighbors c).foldl (fun a n => addToMap a n (camp * (1 / 4))) acc

/-- The new_camp accumulator of CampBehavior.apply, built over all grid
entries with decay applied at the source. -/
def newCampMap (g : Grid) : List (Coord × ℚ) :=
  g.foldl (fun acc p => campSpread acc p.1 (p.2.camp * (1 - camp_decay))) []

/-- The commit loop of CampBehavior.apply: add each accumulated value to the
camp of the same coordinate of the next grid (raising on a missing key). -/
def campCommit : Grid → List (Coord × ℚ) → Option Grid
  | next, [] => some next
  | next, (c, v) :: rest =>
    (aupdate next c (fun t => { t with camp := t.camp + v })).bind
      (fun next2 => campCommit next2 rest)

def campApply (g : Grid) (next : Grid) : Option Grid := campCommit next (newCampMap g)

/-! Simulation driver. -/

/-- The next-grid buffer built at the top of Simulation.step, keyed on the
current (pre-expansion) key set with zeroed sites. -/
def initial_next (g : Grid) : Grid := g.map (fun p => (p.1, zeroSite))

/-- Simulation.step: build the zeroed next grid from the pre-expansion keys,
expand the current grid, apply Mold, Food, Camp in order, prune, swap. -/
def stepQ (g : Grid) : Option Grid :=
  (moldApply (expand_grid g) (initial_next g)).bind (fun n1 =>
    (foodApply (expand_grid g) n1).bind (fun n2 =>
      (campApply (expand_grid g) n2).map prune_empty_sites))

/-- Simulation.run: append a snapshot of the current grid, then step, the
given number of times; a raising step ends the run with the snapshots taken
so far (none marks the propagated exception). -/
def runAux : Nat → Grid → List Grid → List Grid × Option Grid
  | 0, g, h => (h, some g)
  | n + 1, g, h =>
    match stepQ g with
    | none => (h ++ [g], none)
    | some g2 => runAux n g2 (h ++ [g])

def runQ (n : Nat) (g : Grid) : List Grid × Option Grid := runAux n g []

/-- Simulation.initialize_grid: the single seed cell at the origin. -/
def initialize_grid : Grid :=
  [((0, 0), { mold := initial_cells, food := food_capacity, camp := 0, refractory := 0 })]

/-! Derived observation functions used in the statements. -/

def keysOf {β : Type} (g : List (Coord × β)) : List Coord := g.map Prod.fst

abbrev nodupKeys {β : Type} (g : List (Coord × β)) : Prop := (keysOf g).Nodup

def sumMold (g : Grid) : ℚ := (g.map (fun p => p.2.mold)).sum

def moldQ (g : Grid) (c : Coord) : ℚ := ((alookup g c).map Site.mold).getD 0

def foodQ (g : Grid) (c : Coord) : ℚ := ((alookup g c).map Site.food).getD 0

def campQ (g : Grid) (c : Coord) : ℚ := ((alookup g c).map Site.camp).getD 0

def campMapQ (m : List (Coord × ℚ)) (c : Coord) : ℚ := (alookup m c).getD 0

/-! Concrete grids used to instantiate the theorems below. -/

def siteW : Site := { mold := 100, food := 5, camp := 0, refractory := 0 }

/-- The seed cell together with its four neighbors, so that the Mold writes
of the active site land on existing keys. -/
def gW5 : Grid :=
  [((0, 0), siteW),
   ((-1, 0), zeroSite), ((1, 0), zeroSite), ((0, -1), zeroSite), ((0, 1), zeroSite)]

def nextW0 : Grid := initial_next gW5

def nsW : List (Coord × Site) := (ranked_neighbors gW5 (0, 0)).getD []

def resW4 : Grid := (mold_process_site gW5 nextW0 (0, 0) siteW).getD []

def resW10 : Grid := (moldApply gW5 nextW0).getD []

/-- A next buffer already holding food and camp at the active coordinate. -/
def nextW3 : Grid := [((0, 0), { mold := 0, food := 7, camp := 2, refractory := 0 })]

def resW3 : Grid := (foodApply gW5 nextW3).getD []

/-- A single site carrying camp 8 and nothing else. -/
def gW6 : Grid := [((0, 0), { mold := 0, food := 0, camp := 8, refractory := 0 })]

def nextW6 : Grid :=
  [((-1, 0), zeroSite), ((1, 0), zeroSite), ((0, -1), zeroSite), ((0, 1), zeroSite)]

def resW6 : Grid := (campApply gW6 nextW6).getD []

def gW9 : Grid := [((0, 0), siteW)]

def gW8 : Grid := [((0, 0), zeroSite), ((1, 0), siteW)]

/-! Basic lemmas about the association-list operations. -/

theorem alookup_aupdate_self {β : Type} (c : Coord) (f : β → β) :
    ∀ (m m2 : List (Coord × β)), aupdate m c f = some m2 →
      alookup m2 c = (alookup m c).map f := by
  intro m
  induction m with
  | nil => intro m2 h; simp [aupdate] at h
  | cons p rest ih =>
    intro m2 h
    obtain ⟨k, v⟩ := p
    by_cases hk : k = c
    · subst hk
      simp [aupdate] at h
      subst h
      simp [alookup]
    · simp only [aupdate, if_neg hk, Option.map_eq_some'] at h
      obtain ⟨r, hr, hm2⟩ := h
      subst hm2
      simp only [alookup, if_neg hk]
      exact ih r hr

theorem alookup_aupdate_ne {β : Type} (c d : Coord) (f : β → β) (hd : d ≠ c) :
    ∀ (m m2 : List (Coord × β)), aupdate m c f = some m2 →
      alookup m2 d = alookup m d := by
  intro m
  induction m with
  | nil => intro m2 h; simp [aupdate] at h
  | cons p rest ih =>
    intro m2 h
    obtain ⟨k, v⟩ := p
    by_cases hk : k = c
    · subst hk
      simp [aupdate] at h
      subst h
      have hkd : ¬ k = d := fun h2 => hd h2.symm
      simp [alookup, hkd]
    · simp only [aupdate, if_neg hk, Option.map_eq_some'] at h
      obtain ⟨r, hr, hm2⟩ := h
      subst hm2
      simp only [alookup]
      by_cases hkd : k = d
      · simp [hkd]
      · simp only [if_neg hkd]
        exact ih r hr

theorem alookup_aset {β : Type} (c d : Coord) (v : β) :
    ∀ (m : List (Coord × β)),
      alookup (aset m c v) d = if c = d then some v else alookup m d := by
  intro m
  induction m with
  | nil => by_cases h : c = d <;> simp [aset, alookup, h]
  | cons p rest ih =>
    obtain ⟨k, w⟩ := p
    by_cases hk : k = c
    · subst hk
      by_cases hd : k = d
      · subst hd; simp [aset, alookup]
      · simp [aset, alookup, hd]
    · simp only [aset, if_neg hk, alookup]
      by_cases hkd : k = d
      · subst hkd
        have hcd : ¬ c = k := fun h => hk h.symm
        simp [hcd]
      · simp only [if_neg hkd]
        exact ih

theorem sumMold_aupdate_add (c : Coord) (a : ℚ) :
    ∀ (m m2 : Grid),
      aupdate m c (fun t => { t with mold := t.mold + a }) = some m2 →
      sumMold m2 = sumMold m + a := by
  intro m
  induction m with
  | nil => intro m2 h; simp [aupdate] at h
  | cons p rest ih =>
    intro m2 h
    obtain ⟨k, v⟩ := p
    by_cases hk : k = c
    · subst hk
      simp [aupdate] at h
      subst h
      simp [sumMold]
      ring
    · simp only [aupdate, if_neg hk, Option.map_eq_some'] at h
      obtain ⟨r, hr, hm2⟩ := h
      subst hm2
      simp only [sumMold, List.map_cons, List.sum_cons] at *
      rw [ih r hr]
      ring

theorem campMapQ_addToMap (k c : Coord) (v : ℚ) :
    ∀ (m : List (Coord × ℚ)),
      campMapQ (addToMap m k v) c = campMapQ m c + (if k = c then v else 0) := by
  intro m
  induction m with
  | nil =>
    by_cases h : k = c <;> simp [addToMap, campMapQ, alookup, h]
  | cons p rest ih =>
    obtain ⟨a, w⟩ := p
    by_cases hak : a = k
    · subst hak
      by_cases hac : a = c
      · subst hac; simp [addToMap, campMapQ, alookup]
      · simp [addToMap, campMapQ, alookup, hac]
    · simp only [addToMap, if_neg hak]
      by_cases hac : a = c
      · subst hac
        have hka2 : ¬ k = a := fun h => hak h.symm
        simp [campMapQ, alookup, hka2]
      · simp only [campMapQ, alookup, if_neg hac] at *
        exact ih

theorem keysOf_addToMap (k : Coord) (v : ℚ) :
    ∀ (m : List (Coord × ℚ)),
      keysOf (addToMap m k v) = if k ∈ keysOf m then keysOf m else keysOf m ++ [k] := by
  intro m
  induction m with
  | nil => simp [addToMap, keysOf]
  | cons p rest ih =>
    obtain ⟨a, w⟩ := p
    by_cases hak : a = k
    · subst hak
      simp [addToMap, keysOf]
    · simp only [addToMap, if_neg hak, keysOf, List.map_cons] at *
      have hka : ¬ k = a := fun h => hak h.symm
      by_cases hmem : k ∈ keysOf rest
      · simp only [keysOf] at hmem
        simp [hmem, ih, hka]
      · simp only [keysOf] at hmem
        simp [hmem, ih, hka]

theorem nodupKeys_addToMap (k : Coord) (v : ℚ) (m : List (Coord × ℚ))
    (h : nodupKeys m) : nodupKeys (addToMap m k v) := by
  unfold nodupKeys at *
  rw [keysOf_addToMap]
  by_cases hmem : k ∈ keysOf m
  · simp [hmem, h]
  · simp only [if_neg hmem]
    simpa [List.nodup_append] using ⟨h, hmem⟩

/-! Geometry of the four-neighbor topology. -/

theorem neighbors_nodup (c : Coord) : (neighbors c).Nodup := by
  obtain ⟨x, y⟩ := c
  simp [neighbors, Prod.ext_iff]
  omega

theorem self_not_mem_neighbors (c : Coord) : c ∉ neighbors c := by
  obtain ⟨x, y⟩ := c
  simp [neighbors, Prod.ext_iff]
  omega

theorem mem_neighbors_comm (c d : Coord) : c ∈ neighbors d ↔ d ∈ neighbors c := by
  obtain ⟨x, y⟩ := c
  obtain ⟨a, b⟩ := d
  simp [neighbors, Prod.ext_iff]
  omega

/-! Lemmas about the Mold behavior. -/

theorem aupdate_isSome {β : Type} (c : Coord) (f : β → β) :
    ∀ (m m2 : List (Coord × β)), aupdate m c f = some m2 →
      (alookup m c).isSome = true := by
  intro m
  induction m with
  | nil => intro m2 h; simp [aupdate] at h
  | cons p rest ih =>
    intro m2 h
    obtain ⟨k, v⟩ := p
    by_cases hk : k = c
    · simp [alookup, hk]
    · simp only [aupdate, if_neg hk, Option.map_eq_some'] at h
      obtain ⟨r, hr, _⟩ := h
      simp only [alookup, if_neg hk]
      exact ih r hr

theorem alookup_mem {β : Type} (c : Coord) (v : β) :
    ∀ (m : List (Coord × β)), alookup m c = some v → (c, v) ∈ m := by
  intro m
  induction m with
  | nil => intro h; simp [alookup] at h
  | cons p rest ih =>
    intro h
    obtain ⟨k, w⟩ := p
    by_cases hk : k = c
    · subst hk
      simp [alookup] at h
      simp [h]
    · simp only [alookup, if_neg hk] at h
      exact List.mem_cons_of_mem _ (ih h)

theorem alookup_eq_none_of_not_mem {β : Type} (c : Coord) :
    ∀ (m : List (Coord × β)), c ∉ keysOf m → alookup m c = none := by
  intro m
  induction m with
  | nil => intro _; simp [alookup]
  | cons p rest ih =>
    intro h
    obtain ⟨k, w⟩ := p
    simp only [keysOf, List.map_cons, List.mem_cons, not_or] at h
    have hk : ¬ k = c := fun h2 => h.1 h2.symm
    simp only [alookup, if_neg hk]
    exact ih h.2

theorem sum_map_div (c : ℚ) :
    ∀ (l : List ℚ), (l.map (fun x => x / c)).sum = l.sum / c := by
  intro l
  induction l with
  | nil => simp
  | cons x xs ih => simp [ih, add_div]

theorem moldDistrib_sumMold (tm tc : ℚ) (cnt : Nat) :
    ∀ (l : List (Coord × Site)) (next next2 : Grid),
      moldDistrib tm tc cnt next l = some next2 →
      sumMold next2 = sumMold next + tm * (l.map (fun p => moldWeight tc cnt p.2)).sum := by
  intro l
  induction l with
  | nil =>
    intro next next2 h
    simp [moldDistrib] at h
    simp [h]
  | cons p rest ih =>
    intro next next2 h
    obtain ⟨n, s⟩ := p
    simp only [moldDistrib, Option.bind_eq_some] at h
    obtain ⟨n1, hn1, hrest⟩ := h
    have h1 := sumMold_aupdate_add n (tm * moldWeight tc cnt s) next n1 hn1
    have h2 := ih n1 next2 hrest
    simp only [List.map_cons, List.sum_cons]
    rw [h2, h1]
    ring

theorem mapOpt_lookup_pairs (g : Grid) :
    ∀ (L : List Coord) (zs : List (Coord × Site)),
      mapOpt (fun n => (alookup g n).map (fun s => (n, s))) L = some zs →
      zs.map Prod.fst = L ∧ ∀ p ∈ zs, alookup g p.1 = some p.2 := by
  intro L
  induction L with
  | nil =>
    intro zs h
    simp [mapOpt] at h
    subst h
    simp
  | cons n rest ih =>
    intro zs h
    simp only [mapOpt, Option.bind_eq_some, Option.map_eq_some'] at h
    obtain ⟨y, ⟨s, hs, hy⟩, ⟨ys, hys, hzs⟩⟩ := h
    subst hy
    subst hzs
    obtain ⟨ih1, ih2⟩ := ih ys hys
    refine ⟨by simp [ih1], ?_⟩
    intro p hp
    rcases List.mem_cons.mp hp with h1 | h2
    · subst h1; simpa using hs
    · exact ih2 p h2

theorem insertRanked_perm (x : Coord × Site) :
    ∀ (l : List (Coord × Site)), (insertRanked x l).Perm (x :: l) := by
  intro l
  induction l with
  | nil => simp [insertRanked]
  | cons y ys ih =>
    by_cases h : rankLe x y
    · simp [insertRanked, h]
    · simp only [insertRanked, if_neg h]
      exact (ih.cons y).trans (List.Perm.swap x y ys)

theorem sortRanked_perm :
    ∀ (l : List (Coord × Site)), (sortRanked l).Perm l := by
  intro l
  induction l with
  | nil => simp [sortRanked]
  | cons x xs ih =>
    exact (insertRanked_perm x (sortRanked xs)).trans (ih.cons x)

theorem ranked_neighbors_spec (g : Grid) (c : Coord) (ns : List (Coord × Site))
    (h : ranked_neighbors g c = some ns) :
    (ns.map Prod.fst).Perm (neighbors c) ∧ (∀ p ∈ ns, alookup g p.1 = some p.2) ∧
      ns.length = 4 := by
  simp only [ranked_neighbors, Option.map_eq_some'] at h
  obtain ⟨zs, hzs, hns⟩ := h
  subst hns
  obtain ⟨h1, h2⟩ := mapOpt_lookup_pairs g (neighbors c) zs hzs
  have hperm : (sortRanked zs).Perm zs := sortRanked_perm zs
  refine ⟨?_, ?_, ?_⟩
  · rw [← h1]
    exact hperm.map Prod.fst
  · intro p hp
    exact h2 p (hperm.mem_iff.mp hp)
  · have := congrArg List.length h1
    simp only [List.length_map] at this
    rw [hperm.length_eq, this]
    rfl

theorem moldWeight_sum (ns : List (Coord × Site)) (h : ns.length ≠ 0) :
    (ns.map (fun p =>
      moldWeight ((ns.map (fun q => q.2.camp)).sum) ns.length p.2)).sum = 1 := by
  by_cases htc : 0 < (ns.map (fun q => q.2.camp)).sum
  · have hmap : ns.map (fun p =>
        moldWeight ((ns.map (fun q => q.2.camp)).sum) ns.length p.2)
        = (ns.map (fun q => q.2.camp)).map
            (fun x => x / (ns.map (fun q => q.2.camp)).sum) := by
      simp [moldWeight, if_pos htc]
    rw [hmap, sum_map_div]
    exact div_self (ne_of_gt htc)
  · have hmap : ns.map (fun p =>
        moldWeight ((ns.map (fun q => q.2.camp)).sum) ns.length p.2)
        = ns.map (fun _ => 1 / (ns.length : ℚ)) := by
      simp [moldWeight, if_neg htc]
    rw [hmap]
    rw [List.map_const']
    rw [List.sum_replicate]
    have hlen : ((ns.length : ℚ)) ≠ 0 := by
      exact_mod_cast h
    rw [nsmul_eq_mul]
    field_simp

theorem mold_process_site_sumMold (g : Grid) (next next2 : Grid) (c : Coord) (st : Site)
    (h : mold_process_site g next c st = some next2) :
    sumMold next2 = sumMold next + st.mold := by
  simp only [mold_process_site, Option.bind_eq_some] at h
  obtain ⟨ns, hns, hdist⟩ := h
  have hlen : ns.length = 4 := (ranked_neighbors_spec g c ns hns).2.2
  have hsum := moldDistrib_sumMold st.mold ((ns.map (fun p => p.2.camp)).sum) ns.length
    ns next next2 hdist
  rw [hsum, moldWeight_sum ns (by rw [hlen]; exact (by norm_num)), mul_one]

theorem moldDistrib_moldQ (tm tc : ℚ) (cnt : Nat) :
    ∀ (l : List (Coord × Site)) (next next2 : Grid),
      (l.map Prod.fst).Nodup →
      moldDistrib tm tc cnt next l = some next2 →
      (∀ p ∈ l, moldQ next2 p.1 = moldQ next p.1 + tm * moldWeight tc cnt p.2) ∧
      (∀ d, d ∉ l.map Prod.fst → alookup next2 d = alookup next d) := by
  intro l
  induction l with
  | nil =>
    intro next next2 _ h
    simp [moldDistrib] at h
    subst h
    simp
  | cons p rest ih =>
    intro next next2 hnd h
    obtain ⟨n, s⟩ := p
    simp only [List.map_cons, List.nodup_cons] at hnd
    obtain ⟨hn, hrest_nd⟩ := hnd
    simp only [moldDistrib, Option.bind_eq_some] at h
    obtain ⟨n1, hn1, hrest⟩ := h
    obtain ⟨ihA, ihB⟩ := ih n1 next2 hrest_nd hrest
    have hself : alookup n1 n = (alookup next n).map
        (fun t => { t with mold := t.mold + tm * moldWeight tc cnt s }) :=
      alookup_aupdate_self n _ next n1 hn1
    have hsome : (alookup next n).isSome = true := aupdate_isSome n _ next n1 hn1
    constructor
    · intro q hq
      rcases List.mem_cons.mp hq with h1 | h2
      · subst h1
        have hfinal : alookup next2 n = alookup n1 n := ihB n hn
        obtain ⟨t, ht⟩ := Option.isSome_iff_exists.mp hsome
        simp only [moldQ, hfinal, hself, ht, Option.map_some', Option.getD_some]
      · have hq_ne : q.1 ≠ n := by
          intro hqn
          exact hn (hqn ▸ List.mem_map_of_mem Prod.fst h2)
        have hpre : alookup n1 q.1 = alookup next q.1 :=
          alookup_aupdate_ne n q.1 _ hq_ne next n1 hn1
        rw [ihA q h2]
        simp [moldQ, hpre]
    · intro d hd
      simp only [List.map_cons, List.mem_cons, not_or] at hd
      have h1 : alookup next2 d = alookup n1 d := ihB d hd.2
      have h2 : alookup n1 d = alookup next d :=
        alookup_aupdate_ne n d _ hd.1 next n1 hn1
      rw [h1, h2]

theorem moldAux_sumMold (g : Grid) :
    ∀ (l : List (Coord × Site)) (next next2 : Grid),
      moldAux g next l = some next2 →
      sumMold next2 = sumMold next
        + (l.map (fun p => if 0 < p.2.mold then p.2.mold else 0)).sum := by
  intro l
  induction l with
  | nil =>
    intro next next2 h
    simp [moldAux] at h
    subst h
    simp
  | cons p rest ih =>
    intro next next2 h
    obtain ⟨c, st⟩ := p
    by_cases hm : 0 < st.mold
    · simp only [moldAux, if_pos hm, Option.bind_eq_some] at h
      obtain ⟨n1, hn1, hrest⟩ := h
      have h1 := mold_process_site_sumMold g next n1 c st hn1
      have h2 := ih n1 next2 hrest
      simp only [List.map_cons, List.sum_cons, if_pos hm]
      rw [h2, h1]
      ring
    · simp only [moldAux, if_neg hm] at h
      have h2 := ih next next2 h
      simp only [List.map_cons, List.sum_cons, if_neg hm]
      rw [h2]
      ring

theorem sumMold_eq_zero (next : Grid) (hz : ∀ p ∈ next, (p.2 : Site).mold = 0) :
    sumMold next = 0 := by
  apply List.sum_eq_zero
  intro x hx
  obtain ⟨p, hp, hpx⟩ := List.mem_map.mp hx
  rw [← hpx]
  exact hz p hp

theorem sum_pos_part (g : Grid) (hnn : ∀ p ∈ g, 0 ≤ (p.2 : Site).mold) :
    (g.map (fun p => if 0 < p.2.mold then p.2.mold else 0)).sum = sumMold g := by
  induction g with
  | nil => simp [sumMold]
  | cons p rest ih =>
    have hp : 0 ≤ p.2.mold := hnn p (List.mem_cons_self p rest)
    have hrest : ∀ q ∈ rest, 0 ≤ (q.2 : Site).mold :=
      fun q hq => hnn q (List.mem_cons_of_mem p hq)
    simp only [List.map_cons, List.sum_cons, sumMold] at *
    rw [ih hrest]
    by_cases hm : 0 < p.2.mold
    · simp [hm, sumMold]
    · have : p.2.mold = 0 := le_antisymm (not_lt.mp hm) hp
      simp [hm, this, sumMold]

/-! Lemmas about the Food behavior. -/

theorem foodAux_not_mem (d : Coord) :
    ∀ (l : List (Coord × Site)) (next next2 : Grid),
      d ∉ l.map Prod.fst → foodAux next l = some next2 →
      alookup next2 d = alookup next d := by
  intro l
  induction l with
  | nil =>
    intro next next2 _ h
    simp [foodAux] at h
    subst h
    rfl
  | cons p rest ih =>
    intro next next2 hd h
    obtain ⟨c, st⟩ := p
    simp only [List.map_cons, List.mem_cons, not_or] at hd
    by_cases hact : foodActive st
    · simp only [foodAux, if_pos hact, Option.bind_eq_some] at h
      obtain ⟨n1, hn1, hrest⟩ := h
      have h1 := alookup_aupdate_ne c d _ hd.1 next n1 hn1
      rw [ih n1 next2 hd.2 hrest]
      exact h1
    · simp only [foodAux, if_neg hact] at h
      exact ih next next2 hd.2 h

theorem foodAux_food_camp :
    ∀ (l : List (Coord × Site)) (next next2 : Grid) (c : Coord) (st : Site),
      (l.map Prod.fst).Nodup → (c, st) ∈ l → foodActive st = true →
      foodAux next l = some next2 →
      foodQ next2 c = foodQ next c - food_consumption_rate * st.mold ∧
      campQ next2 c = campQ next c + food_consumption_rate * st.mold * amplification_factor := by
  intro l
  induction l with
  | nil => intro next next2 c st _ hmem; simp at hmem
  | cons p rest ih =>
    intro next next2 c st hnd hmem hact h
    obtain ⟨k, kst⟩ := p
    simp only [List.map_cons, List.nodup_cons] at hnd
    obtain ⟨hk_nin, hrest_nd⟩ := hnd
    rcases List.mem_cons.mp hmem with h1 | h2
    · injection h1 with hkc hkst
      subst hkc
      subst hkst
      simp only [foodAux, if_pos hact, Option.bind_eq_some] at h
      obtain ⟨n1, hn1, hrest⟩ := h
      have hsome : (alookup next c).isSome = true := aupdate_isSome c _ next n1 hn1
      obtain ⟨t, ht⟩ := Option.isSome_iff_exists.mp hsome
      have hself := alookup_aupdate_self c
        (fun t => { t with
          camp := t.camp + food_consumption_rate * st.mold * amplification_factor,
          food := t.food - food_consumption_rate * st.mold }) next n1 hn1
      have hfinal : alookup next2 c = alookup n1 c :=
        foodAux_not_mem c rest n1 next2 hk_nin hrest
      constructor
      · simp [foodQ, hfinal, hself, ht]
      · simp [campQ, hfinal, hself, ht]
    · have hc_ne : c ≠ k := by
        intro hck
        exact hk_nin (hck ▸ List.mem_map_of_mem Prod.fst h2)
      by_cases hkact : foodActive kst
      · simp only [foodAux, if_pos hkact, Option.bind_eq_some] at h
        obtain ⟨n1, hn1, hrest⟩ := h
        have hpre : alookup n1 c = alookup next c :=
          alookup_aupdate_ne k c _ hc_ne next n1 hn1
        have := ih n1 next2 c st hrest_nd h2 hact hrest
        simpa [foodQ, campQ, hpre] using this
      · simp only [foodAux, if_neg hkact] at h
        exact ih next next2 c st hrest_nd h2 hact h

/-! Lemmas about the Camp behavior. -/

theorem foldl_addToMap_campMapQ (w : ℚ) (c : Coord) :
    ∀ (L : List Coord), L.Nodup → ∀ (acc : List (Coord × ℚ)),
      campMapQ (L.foldl (fun a n => addToMap a n w) acc) c
        = campMapQ acc c + (if c ∈ L then w else 0) := by
  intro L
  induction L with
  | nil => intro _ acc; simp
  | cons n T ih =>
    intro hnd acc
    simp only [List.nodup_cons] at hnd
    obtain ⟨hn, hT⟩ := hnd
    simp only [List.foldl_cons]
    rw [ih hT (addToMap acc n w), campMapQ_addToMap]
    by_cases hcn : c = n
    · subst hcn
      have hcT : c ∉ T := hn
      simp [hcT]
    · have : ¬ n = c := fun h => hcn h.symm
      simp only [if_neg this, add_zero, List.mem_cons]
      by_cases hcT : c ∈ T
      · simp [hcT, hcn]
      · simp [hcT, hcn]

theorem campSpread_campMapQ (c s : Coord) (v : ℚ) (acc : List (Coord × ℚ)) :
    campMapQ (campSpread acc s v) c
      = campMapQ acc c + (if c ∈ neighbors s then v * (1 / 4) else 0) := by
  unfold campSpread
  exact foldl_addToMap_campMapQ (v * (1 / 4)) c (neighbors s) (neighbors_nodup s) acc

theorem newCampAux_campMapQ (c : Coord) :
    ∀ (l : List (Coord × Site)) (acc : List (Coord × ℚ)),
      campMapQ (l.foldl (fun a p => campSpread a p.1 (p.2.camp * (1 - camp_decay))) acc) c
        = campMapQ acc c
          + (l.map (fun p =>
              if c ∈ neighbors p.1 then p.2.camp * (1 - camp_decay) * (1 / 4) else 0)).sum := by
  intro l
  induction l with
  | nil => intro acc; simp
  | cons p rest ih =>
    intro acc
    simp only [List.foldl_cons, List.map_cons, List.sum_cons]
    rw [ih (campSpread acc p.1 (p.2.camp * (1 - camp_decay))), campSpread_campMapQ]
    ring

theorem campQ_cons (s : Coord) (st : Site) (rest : Grid) (n : Coord) :
    campQ ((s, st) :: rest) n = if s = n then st.camp else campQ rest n := by
  by_cases h : s = n <;> simp [campQ, alookup, h]

theorem sum_map_ite_key (s : Coord) (a : ℚ) (f : Coord → ℚ) (hs : f s = 0) :
    ∀ (L : List Coord), L.Nodup →
      (L.map (fun n => if s = n then a else f n)).sum
        = (L.map f).sum + (if s ∈ L then a else 0) := by
  intro L
  induction L with
  | nil => simp
  | cons n T ih =>
    intro hnd
    simp only [List.nodup_cons] at hnd
    obtain ⟨hn, hT⟩ := hnd
    simp only [List.map_cons, List.sum_cons]
    rw [ih hT]
    by_cases hsn : s = n
    · subst hsn
      simp [hn, hs]
      ring
    · simp only [if_neg hsn, List.mem_cons]
      have : ¬ (s = n ∨ s ∈ T) ↔ ¬ s = n ∧ s ∉ T := not_or
      by_cases hsT : s ∈ T
      · simp [hsT, hsn]
        ring
      · simp [hsT, hsn]

theorem indicator_sum_eq_neighbor_sum (c : Coord) :
    ∀ (g : Grid), nodupKeys g →
      (g.map (fun p =>
        if p.1 ∈ neighbors c then p.2.camp * (1 - camp_decay) * (1 / 4) else 0)).sum
        = ((neighbors c).map (fun n => campQ g n * (1 - camp_decay) * (1 / 4))).sum := by
  intro g
  induction g with
  | nil =>
    intro _
    simp [campQ, alookup]
  | cons p rest ih =>
    intro hnd
    obtain ⟨s, st⟩ := p
    simp only [nodupKeys, keysOf, List.map_cons, List.nodup_cons] at hnd
    obtain ⟨hs_nin, hrest_nd⟩ := hnd
    have hrest : nodupKeys rest := hrest_nd
    simp only [List.map_cons, List.sum_cons]
    rw [ih hrest]
    have hcampQ : ∀ n, campQ ((s, st) :: rest) n = if s = n then st.camp else campQ rest n :=
      campQ_cons s st rest
    have hmap : (neighbors c).map (fun n => campQ ((s, st) :: rest) n * (1 - camp_decay) * (1 / 4))
        = (neighbors c).map (fun n =>
            if s = n then st.camp * (1 - camp_decay) * (1 / 4)
            else campQ rest n * (1 - camp_decay) * (1 / 4)) := by
      apply List.map_congr_left
      intro n _
      rw [hcampQ n]
      by_cases h : s = n <;> simp [h]
    rw [hmap]
    have hzero : campQ rest s * (1 - camp_decay) * (1 / 4) = 0 := by
      have : alookup rest s = none :=
        alookup_eq_none_of_not_mem s rest (by simpa [keysOf] using hs_nin)
      simp [campQ, this]
    rw [sum_map_ite_key s (st.camp * (1 - camp_decay) * (1 / 4))
      (fun n => campQ rest n * (1 - camp_decay) * (1 / 4)) hzero (neighbors c)
      (neighbors_nodup c)]
    ring

theorem campCommit_campQ (c : Coord) :
    ∀ (M : List (Coord × ℚ)) (next next2 : Grid),
      nodupKeys M → campCommit next M = some next2 →
      campQ next2 c = campQ next c + campMapQ M c := by
  intro M
  induction M with
  | nil =>
    intro next next2 _ h
    simp [campCommit] at h
    subst h
    simp [campMapQ, alookup]
  | cons p rest ih =>
    intro next next2 hnd h
    obtain ⟨k, v⟩ := p
    simp only [nodupKeys, keysOf, List.map_cons, List.nodup_cons] at hnd
    obtain ⟨hk_nin, hrest_nd⟩ := hnd
    simp only [campCommit, Option.bind_eq_some] at h
    obtain ⟨n1, hn1, hrest⟩ := h
    have hrec := ih n1 next2 hrest_nd hrest
    by_cases hkc : k = c
    · subst hkc
      have hsome : (alookup next k).isSome = true := aupdate_isSome k _ next n1 hn1
      obtain ⟨t, ht⟩ := Option.isSome_iff_exists.mp hsome
      have hself := alookup_aupdate_self k (fun t => { t with camp := t.camp + v }) next n1 hn1
      have hrest0 : campMapQ rest k = 0 := by
        have : alookup rest k = none :=
          alookup_eq_none_of_not_mem k rest (by simpa [keysOf] using hk_nin)
        simp [campMapQ, this]
      rw [hrec, hrest0]
      simp [campQ, campMapQ, alookup, hself, ht]
    · have hpre : alookup n1 c = alookup next c :=
        alookup_aupdate_ne k c _ (fun h2 => hkc h2.symm) next n1 hn1
      rw [hrec]
      simp [campQ, campMapQ, alookup, hpre, hkc]

theorem nodupKeys_foldl_addToMap (w : ℚ) :
    ∀ (L : List Coord) (acc : List (Coord × ℚ)),
      nodupKeys acc → nodupKeys (L.foldl (fun a n => addToMap a n w) acc) := by
  intro L
  induction L with
  | nil => intro acc h; simpa using h
  | cons n T ih =>
    intro acc h
    simp only [List.foldl_cons]
    exact ih (addToMap acc n w) (nodupKeys_addToMap n w acc h)

theorem nodupKeys_newCampMap_aux :
    ∀ (l : List (Coord × Site)) (acc : List (Coord × ℚ)),
      nodupKeys acc →
      nodupKeys (l.foldl (fun a p => campSpread a p.1 (p.2.camp * (1 - camp_decay))) acc) := by
  intro l
  induction l with
  | nil => intro acc h; simpa using h
  | cons p rest ih =>
    intro acc h
    simp only [List.foldl_cons]
    exact ih _ (nodupKeys_foldl_addToMap _ (neighbors p.1) acc h)

theorem nodupKeys_newCampMap (g : Grid) : nodupKeys (newCampMap g) := by
  unfold newCampMap
  exact nodupKeys_newCampMap_aux g [] (by simp [nodupKeys, keysOf])

/-! Lemmas about grid expansion and pruning. -/

theorem alookup_foldl_aset_zero (c : Coord) :
    ∀ (L : List Coord) (g0 : Grid),
      alookup (L.foldl (fun gr x => aset gr x zeroSite) g0) c
        = if c ∈ L then some zeroSite else alookup g0 c := by
  intro L
  induction L with
  | nil => intro g0; simp
  | cons x T ih =>
    intro g0
    simp only [List.foldl_cons]
    rw [ih (aset g0 x zeroSite), alookup_aset]
    by_cases hT : c ∈ T
    · simp [hT]
    · by_cases hx : x = c
      · subst hx
        simp [hT]
      · have : ¬ c = x := fun h => hx h.symm
        simp [hT, hx, this]

theorem mem_foldl_append {α β : Type} (f : β → List α) (x : α) :
    ∀ (l : List β) (acc : List α),
      x ∈ l.foldl (fun a p => a ++ f p) acc ↔ x ∈ acc ∨ ∃ p ∈ l, x ∈ f p := by
  intro l
  induction l with
  | nil => intro acc; simp
  | cons p rest ih =>
    intro acc
    simp only [List.foldl_cons]
    rw [ih (acc ++ f p)]
    simp only [List.mem_append, List.mem_cons]
    constructor
    · rintro ((h | h) | ⟨q, hq, hx⟩)
      · exact Or.inl h
      · exact Or.inr ⟨p, Or.inl rfl, h⟩
      · exact Or.inr ⟨q, Or.inr hq, hx⟩
    · rintro (h | ⟨q, (rfl | hq), hx⟩)
      · exact Or.inl (Or.inl h)
      · exact Or.inl (Or.inr hx)
      · exact Or.inr ⟨q, hq, hx⟩

theorem mem_expand_new_cells (g : Grid) (c : Coord) :
    c ∈ expand_new_cells g ↔ (∃ p ∈ g, c ∈ neighbors p.1) ∧ containsG g c = false := by
  unfold expand_new_cells
  rw [mem_foldl_append (fun p => (neighbors p.1).filter (fun n => !(containsG g n))) c g []]
  simp only [List.not_mem_nil, false_or, List.mem_filter, Bool.not_eq_eq_eq_not, Bool.not_true]
  constructor
  · rintro ⟨p, hp, hn, hc⟩
    exact ⟨⟨p, hp, hn⟩, hc⟩
  · rintro ⟨⟨p, hp, hn⟩, hc⟩
    exact ⟨p, hp, hn, hc⟩

theorem containsG_false_iff (g : Grid) (c : Coord) :
    containsG g c = false ↔ alookup g c = none := by
  unfold containsG
  cases alookup g c <;> simp

theorem stepQ_eq_some (g g2 : Grid) (h : stepQ g = some g2) :
    ∃ n1 n2 n3, moldApply (expand_grid g) (initial_next g) = some n1 ∧
      foodApply (expand_grid g) n1 = some n2 ∧
      campApply (expand_grid g) n2 = some n3 ∧
      g2 = prune_empty_sites n3 := by
  simp only [stepQ, Option.bind_eq_some, Option.map_eq_some'] at h
  obtain ⟨n1, h1, n2, h2, n3, h3, h4⟩ := h
  exact ⟨n1, n2, n3, h1, h2, h3, h4.symm⟩

/-! The claims. -/

/-- C1: the claim that, before any behavior runs, the next grid's key set
matches or exceeds the expanded current grid's key set fails on the code: at
the very first step from the seed, the expanded current grid contains
(-1, 0) while the next grid, keyed on the pre-expansion key set, does not,
and the step aborts on the resulting missing-key access. -/
theorem C1_next_grid_missing_expanded_key :
    containsG (expand_grid initialize_grid) (-1, 0) = true ∧
    containsG (initial_next initialize_grid) (-1, 0) = false ∧
    stepQ initialize_grid = none := by decide

/-- C2 counterexample: executing one step from the documented seed does not
complete (the step evaluates to none, the model of the raised KeyError), so
it cannot yield the claimed neighbor mold, food, and camp values. -/
theorem C2_step_on_seed_fails : stepQ initialize_grid = none := by decide

/-- C2 (amended): from the documented seed the first step raises a
missing-key error instead of completing: the Mold behavior must write to
the seed's neighbor (-1, 0), which is absent from the next grid, so the
Mold phase and with it the whole step return none and no post-step values
are produced. -/
theorem C2_first_step_raises_keyerror :
    ((-1, 0) ∈ neighbors ((0 : Int), (0 : Int))) ∧
    alookup (initial_next initialize_grid) (-1, 0) = none ∧
    moldApply (expand_grid initialize_grid) (initial_next initialize_grid) = none ∧
    stepQ initialize_grid = none := by decide

/-- C3 counterexample: on the concrete grid gW5 (the seed cell with its four
neighbors present, so Mold succeeds), running Mold then Food on the step's
zeroed next buffer leaves food -10 at the origin, while the claimed value
current.food - rate * current.mold is -5: the pre-step food is never carried
into the freshly zeroed next grid, so the claimed equation fails. -/
theorem C3_food_not_carried_forward :
    ((moldApply (expand_grid gW5) (initial_next gW5)).bind
        (foodApply (expand_grid gW5))).map (fun n => foodQ n ((0 : Int), (0 : Int)))
      = some (-10) ∧
    foodQ gW5 (0, 0) - food_consumption_rate * moldQ gW5 (0, 0) = -5 ∧
    ((-10 : ℚ) ≠ -5) := by decide

/-- C3 (amended): at a food-active coordinate the Food behavior changes the
next grid by exactly -consumed food and +consumed * amplification_factor
camp relative to whatever the buffer already holds (so from the driver's
zeroed buffer the absolute next food is -consumed, not
current.food - consumed); the buffer is arbitrary here, which captures
independence from the Mold and Camp contributions to the same cell. -/
theorem C3_food_contribution (g next next2 : Grid) (c : Coord) (st : Site)
    (hnd : nodupKeys g)
    (hlk : alookup g c = some st)
    (hact : foodActive st = true)
    (happ : foodApply g next = some next2) :
    foodQ next2 c = foodQ next c - food_consumption_rate * st.mold ∧
    campQ next2 c = campQ next c + food_consumption_rate * st.mold * amplification_factor := by
  unfold foodApply at happ
  exact foodAux_food_camp g next next2 c st hnd (alookup_mem c st g hlk) hact happ

/-- C3 witness: the amended Food theorem instantiated at gW5 and a buffer
already holding food 7 and camp 2 at the active coordinate. -/
theorem C3_food_contribution_w :
    foodQ resW3 (0, 0) = foodQ nextW3 (0, 0) - food_consumption_rate * siteW.mold ∧
    campQ resW3 (0, 0)
      = campQ nextW3 (0, 0) + food_consumption_rate * siteW.mold * amplification_factor :=
  C3_food_contribution gW5 nextW3 resW3 (0, 0) siteW (by decide) (by decide) (by decide)
    (by decide)

/-- C4: for a processed mold source site the four neighbor weights sum to 1
in both the camp-proportional and the uniform-fallback case, so the
distributed amounts total exactly the source site's pre-step mold: the next
grid's total mold grows by st.mold. -/
theorem C4_mold_weights_sum_to_one (g next next2 : Grid) (c : Coord) (st : Site)
    (ns : List (Coord × Site))
    (hm : 0 < st.mold)
    (hrn : ranked_neighbors g c = some ns)
    (happ : mold_process_site g next c st = some next2) :
    (ns.map (fun p =>
      moldWeight ((ns.map (fun q => q.2.camp)).sum) ns.length p.2)).sum = 1 ∧
    sumMold next2 = sumMold next + st.mold := by
  constructor
  · apply moldWeight_sum
    rw [(ranked_neighbors_spec g c ns hrn).2.2]
    norm_num
  · exact mold_process_site_sumMold g next next2 c st happ

/-- C4 witness: the weight-sum and conservation at the concrete grid gW5. -/
theorem C4_mold_weights_sum_to_one_w :
    (nsW.map (fun p =>
      moldWeight ((nsW.map (fun q => q.2.camp)).sum) nsW.length p.2)).sum = 1 ∧
    sumMold resW4 = sumMold nextW0 + siteW.mold :=
  C4_mold_weights_sum_to_one gW5 nextW0 resW4 (0, 0) siteW nsW (by decide) (by decide)
    (by decide)

/-- C5: when all four neighbors of an active mold site carry camp 0 in the
current grid, the uniform fallback weight 1/4 is used and each of the four
neighbors receives exactly mold/4 from that site. -/
theorem C5_uniform_quarter_fallback (g next next2 : Grid) (c : Coord) (st : Site)
    (hm : 0 < st.mold)
    (hz : ∀ n ∈ neighbors c, containsG g n = true ∧ campQ g n = 0)
    (happ : mold_process_site g next c st = some next2) :
    ∀ n ∈ neighbors c, moldQ next2 n = moldQ next n + st.mold / 4 := by
  simp only [mold_process_site, Option.bind_eq_some] at happ
  obtain ⟨ns, hns, hdist⟩ := happ
  obtain ⟨hperm, hlk, hlen⟩ := ranked_neighbors_spec g c ns hns
  have hnd : (ns.map Prod.fst).Nodup := hperm.nodup_iff.mpr (neighbors_nodup c)
  have htc : (ns.map (fun p => p.2.camp)).sum = 0 := by
    apply List.sum_eq_zero
    intro x hx
    obtain ⟨p, hp, hpx⟩ := List.mem_map.mp hx
    have hp1 : p.1 ∈ neighbors c := hperm.mem_iff.mp (List.mem_map_of_mem Prod.fst hp)
    have hcz := (hz p.1 hp1).2
    rw [← hpx]
    simpa [campQ, hlk p hp] using hcz
  obtain ⟨hA, _⟩ := moldDistrib_moldQ st.mold ((ns.map (fun p => p.2.camp)).sum)
    ns.length ns next next2 hnd hdist
  intro n hn
  obtain ⟨p, hp, hpn⟩ := List.mem_map.mp (hperm.mem_iff.mpr hn)
  have hval := hA p hp
  rw [hpn] at hval
  have hw : moldWeight ((ns.map (fun p => p.2.camp)).sum) ns.length p.2 = 1 / 4 := by
    rw [htc, hlen]
    norm_num [moldWeight]
  rw [hval, hw]
  ring

/-- C5 witness: each neighbor of the seed cell of gW5 (all camps 0) receives
exactly 100/4 = 25; instantiated at neighbor (-1, 0). -/
theorem C5_uniform_quarter_fallback_w :
    moldQ resW4 (-1, 0) = moldQ nextW0 (-1, 0) + siteW.mold / 4 :=
  C5_uniform_quarter_fallback gW5 nextW0 resW4 (0, 0) siteW (by decide) (by decide)
    (by decide) (-1, 0) (by decide)

/-- C6: the Camp rule commits to a coordinate exactly the sum of its four
neighbors' decayed quarter-shares; a site is not among its own neighbors, so
no site receives any of its own decayed signal, and a site all of whose
neighbors carry camp 0 receives no contribution at all. -/
theorem C6_camp_only_from_neighbors (g next next2 : Grid) (c : Coord)
    (hnd : nodupKeys g)
    (happ : campApply g next = some next2) :
    c ∉ neighbors c ∧
    campQ next2 c = campQ next c
      + ((neighbors c).map (fun n => campQ g n * (1 - camp_decay) * (1 / 4))).sum ∧
    ((∀ n ∈ neighbors c, campQ g n = 0) → campQ next2 c = campQ next c) := by
  have hcommit := campCommit_campQ c (newCampMap g) next next2 (nodupKeys_newCampMap g) happ
  have hval : campMapQ (newCampMap g) c
      = (g.map (fun p =>
          if c ∈ neighbors p.1 then p.2.camp * (1 - camp_decay) * (1 / 4) else 0)).sum := by
    have h := newCampAux_campMapQ c g []
    simpa [newCampMap, campMapQ, alookup] using h
  have hsym : (g.map (fun p =>
        if c ∈ neighbors p.1 then p.2.camp * (1 - camp_decay) * (1 / 4) else 0))
      = (g.map (fun p =>
          if p.1 ∈ neighbors c then p.2.camp * (1 - camp_decay) * (1 / 4) else 0)) := by
    apply List.map_congr_left
    intro p _
    simp only [mem_neighbors_comm]
  have hind := indicator_sum_eq_neighbor_sum c g hnd
  refine ⟨self_not_mem_neighbors c, ?_, ?_⟩
  · rw [hcommit, hval, hsym, hind]
  · intro hzero
    rw [hcommit, hval, hsym, hind]
    have hz : ((neighbors c).map (fun n => campQ g n * (1 - camp_decay) * (1 / 4))).sum = 0 := by
      apply List.sum_eq_zero
      intro x hx
      obtain ⟨n, hn, hnx⟩ := List.mem_map.mp hx
      rw [← hnx, hzero n hn]
      ring
    rw [hz, add_zero]

/-- C6 witness: for gW6 (camp 8 at the origin only) the committed increment
at the origin is the sum over its neighbors, which is 0, although the origin
itself carried camp 8: its own decayed signal never returns to it. -/
theorem C6_camp_only_from_neighbors_w :
    campQ resW6 ((0 : Int), (0 : Int)) = campQ nextW6 (0, 0)
      + ((neighbors ((0 : Int), (0 : Int))).map
          (fun n => campQ gW6 n * (1 - camp_decay) * (1 / 4))).sum :=
  (C6_camp_only_from_neighbors gW6 nextW6 resW6 (0, 0) (by decide) (by decide)).2.1

/-- C7: the claim that run(n) always leaves exactly n snapshots fails on the
code: from the seed, run(2) raises inside the first step, ending with a
history of length 1 whose only element is the untouched initial grid. -/
theorem C7_run_history_stops_short :
    (runQ 2 initialize_grid).1 = [initialize_grid] ∧
    (runQ 2 initialize_grid).2 = none := by decide

/-- C8: prune_empty_sites keeps exactly the entries having some nonzero
field, and a completed step, which applies it once after the three
behaviors, yields a grid in which no entry has all four fields zero. -/
theorem C8_prune_removes_exactly_zero_sites (g g2 : Grid) :
    (∀ p : Coord × Site, p ∈ prune_empty_sites g ↔ p ∈ g ∧ siteAllZero p.2 = false) ∧
    (stepQ g = some g2 → ∀ p ∈ g2, siteAllZero p.2 = false) := by
  constructor
  · intro p
    simp [prune_empty_sites, List.mem_filter]
  · intro hstep p hp
    obtain ⟨n1, n2, n3, _, _, _, hg2⟩ := stepQ_eq_some g g2 hstep
    subst hg2
    simp only [prune_empty_sites, List.mem_filter, Bool.not_eq_eq_eq_not, Bool.not_true] at hp
    exact hp.2

/-- C8 witness: the pruning characterisation at a concrete grid with one
all-zero entry, and the post-step property at the empty grid (a completed
step). -/
theorem C8_prune_removes_exactly_zero_sites_w :
    (((0, 0), zeroSite) ∈ prune_empty_sites gW8 ↔
      ((0, 0), zeroSite) ∈ gW8 ∧ siteAllZero zeroSite = false) ∧
    (∀ p ∈ ([] : Grid), siteAllZero p.2 = false) :=
  ⟨(C8_prune_removes_exactly_zero_sites gW8 []).1 ((0, 0), zeroSite),
   (C8_prune_removes_exactly_zero_sites ([] : Grid) ([] : Grid)).2 (by decide)⟩

/-- C9: expansion inserts, zero-initialised, exactly the neighbors of the
pre-expansion key set that are not already keys (existing entries are
unchanged and no coordinate beyond those neighbors appears, so the call
never cascades), and on a grid in which every cell's neighbors are already
present it is the identity. -/
theorem C9_expand_grid_exact_and_idempotent (g : Grid) :
    (∀ c, containsG g c = true → alookup (expand_grid g) c = alookup g c) ∧
    (∀ c, containsG g c = false → (∃ p ∈ g, c ∈ neighbors p.1) →
      alookup (expand_grid g) c = some zeroSite) ∧
    (∀ c, containsG g c = false → (∀ p ∈ g, c ∉ neighbors p.1) →
      alookup (expand_grid g) c = none) ∧
    ((∀ p ∈ g, ∀ n ∈ neighbors p.1, containsG g n = true) → expand_grid g = g) := by
  have hlk : ∀ c, alookup (expand_grid g) c
      = if c ∈ expand_new_cells g then some zeroSite else alookup g c := by
    intro c
    unfold expand_grid
    exact alookup_foldl_aset_zero c (expand_new_cells g) g
  refine ⟨?_, ?_, ?_, ?_⟩
  · intro c hc
    rw [hlk c]
    have hnin : c ∉ expand_new_cells g := by
      intro hmem
      have hfalse := ((mem_expand_new_cells g c).mp hmem).2
      rw [hfalse] at hc
      exact Bool.false_ne_true hc
    simp [hnin]
  · intro c hc hex
    rw [hlk c]
    have hin : c ∈ expand_new_cells g := (mem_expand_new_cells g c).mpr ⟨hex, hc⟩
    simp [hin]
  · intro c hc hnone
    rw [hlk c]
    have hnin : c ∉ expand_new_cells g := by
      intro hmem
      obtain ⟨⟨p, hp, hn⟩, _⟩ := (mem_expand_new_cells g c).mp hmem
      exact hnone p hp hn
    rw [if_neg hnin]
    exact (containsG_false_iff g c).mp hc
  · intro hfull
    have hempty : expand_new_cells g = [] := by
      apply List.eq_nil_iff_forall_not_mem.mpr
      intro c hmem
      obtain ⟨⟨p, hp, hn⟩, hc⟩ := (mem_expand_new_cells g c).mp hmem
      rw [hfull p hp c hn] at hc
      simp at hc
    unfold expand_grid
    rw [hempty]
    rfl

/-- C9 witness: at the one-cell grid gW9, an existing key keeps its state, a
missing neighbor is inserted zeroed, a non-neighbor stays absent; and on the
(fully expanded) empty grid expansion is the identity. -/
theorem C9_expand_grid_exact_and_idempotent_w :
    alookup (expand_grid gW9) (0, 0) = alookup gW9 (0, 0) ∧
    alookup (expand_grid gW9) (1, 0) = some zeroSite ∧
    alookup (expand_grid gW9) (5, 5) = none ∧
    expand_grid ([] : Grid) = [] :=
  ⟨(C9_expand_grid_exact_and_idempotent gW9).1 (0, 0) (by decide),
   (C9_expand_grid_exact_and_idempotent gW9).2.1 (1, 0) (by decide)
     ⟨((0, 0), siteW), by decide, by decide⟩,
   (C9_expand_grid_exact_and_idempotent gW9).2.2.1 (5, 5) (by decide) (by decide),
   (C9_expand_grid_exact_and_idempotent ([] : Grid)).2.2.2 (by decide)⟩

/-- C10: applying the Mold behavior alone to a current grid with nonnegative
mold, writing into a next buffer whose mold fields are all zero, conserves
the total mold over the whole grid. -/
theorem C10_mold_globally_conserved (g next next2 : Grid)
    (hnn : ∀ p ∈ g, 0 ≤ (p.2 : Site).mold)
    (hz : ∀ p ∈ next, (p.2 : Site).mold = 0)
    (happ : moldApply g next = some next2) :
    sumMold next2 = sumMold g := by
  unfold moldApply at happ
  have h1 := moldAux_sumMold g g next next2 happ
  rw [h1, sumMold_eq_zero next hz, sum_pos_part g hnn, zero_add]

/-- C10 witness: total mold 100 is conserved by the Mold application on the
concrete grid gW5. -/
theorem C10_mold_globally_conserved_w : sumMold resW10 = sumMold gW5 :=
  C10_mold_globally_conserved gW5 nextW0 resW10 (by decide) (by decide) (by decide)

end SLife
